import Mathlib

/-!
Shallow embedding of the tome wiki (src/main.rs, src/filters.rs, src/media.rs).

Strings are modelled as `List Char` (Rust `String` / `&str`), byte strings as
`List Nat` with every element `< 256` (Rust `[u8]`). The filesystem under
`content/articles` is an association list from directory name (the encoded
slug) to its entries in `read_dir` order; media storage is a lookup function.
-/

namespace Tome

/-- Rust strings, as their character lists. -/
abbrev Str := List Char

deriving instance DecidableEq for Except

/-! ## Slug codec: the `urlencoding` crate as used by `Article::path`
(main.rs:46-48) and `urlencoding::decode` (main.rs:176, 156, 214). -/

/-- UTF-8 encoding of one Unicode scalar value, byte values as `Nat`
(Rust `str` bytes; arithmetic form of `char::encode_utf8`). -/
def utf8EncodeChar (c : Char) : List Nat :=
  if c.toNat < 0x80 then [c.toNat]
  else if c.toNat < 0x800 then [0xC0 + c.toNat / 64, 0x80 + c.toNat % 64]
  else if c.toNat < 0x10000 then
    [0xE0 + c.toNat / 4096, 0x80 + c.toNat / 64 % 64, 0x80 + c.toNat % 64]
  else [0xF0 + c.toNat / 262144, 0x80 + c.toNat / 4096 % 64,
    0x80 + c.toNat / 64 % 64, 0x80 + c.toNat % 64]

/-- UTF-8 bytes of a whole string. -/
def utf8Bytes (s : Str) : List Nat := s.flatMap utf8EncodeChar

/-- Is `b` a UTF-8 continuation byte `0x80..0xBF`? -/
def isCont (b : Nat) : Prop := 0x80 ≤ b ∧ b < 0xC0

instance (b : Nat) : Decidable (isCont b) := by
  unfold isCont
  infer_instance

/-- Scalar value of a two-byte UTF-8 sequence. -/
def utf8Val2 (b b2 : Nat) : Nat := (b - 0xC0) * 64 + (b2 - 0x80)

/-- Scalar value of a three-byte UTF-8 sequence. -/
def utf8Val3 (b b2 b3 : Nat) : Nat := (b - 0xE0) * 4096 + (b2 - 0x80) * 64 + (b3 - 0x80)

/-- Scalar value of a four-byte UTF-8 sequence. -/
def utf8Val4 (b b2 b3 b4 : Nat) : Nat :=
  (b - 0xF0) * 262144 + (b2 - 0x80) * 4096 + (b3 - 0x80) * 64 + (b4 - 0x80)

/-- Continuation of a two-byte UTF-8 sequence with lead byte `b`. -/
def utf8Tail2 (b : Nat) : List Nat → Option (Char × List Nat)
  | b2 :: r => if isCont b2 then some (Char.ofNat (utf8Val2 b b2), r) else none
  | [] => none

/-- Continuation of a three-byte UTF-8 sequence with lead byte `b`. -/
def utf8Tail3 (b : Nat) : List Nat → Option (Char × List Nat)
  | b2 :: b3 :: r =>
    if isCont b2 ∧ isCont b3 ∧ 0x800 ≤ utf8Val3 b b2 b3 ∧
        (utf8Val3 b b2 b3 < 0xD800 ∨ 0xE000 ≤ utf8Val3 b b2 b3) then
      some (Char.ofNat (utf8Val3 b b2 b3), r)
    else none
  | _ => none

/-- Continuation of a four-byte UTF-8 sequence with lead byte `b`. -/
def utf8Tail4 (b : Nat) : List Nat → Option (Char × List Nat)
  | b2 :: b3 :: b4 :: r =>
    if isCont b2 ∧ isCont b3 ∧ isCont b4 ∧ 0x10000 ≤ utf8Val4 b b2 b3 b4 ∧
        utf8Val4 b b2 b3 b4 < 0x110000 then
      some (Char.ofNat (utf8Val4 b b2 b3 b4), r)
    else none
  | _ => none

/-- One step of strict UTF-8 decoding (Rust `String::from_utf8`): reads the
leading scalar of the byte list, rejecting overlong forms, surrogates,
out-of-range scalars and truncated sequences. -/
def utf8DecodeStep : List Nat → Option (Char × List Nat)
  | [] => none
  | b :: rest =>
    if b < 0x80 then some (Char.ofNat b, rest)
    else if b < 0xC2 then none
    else if b < 0xE0 then utf8Tail2 b rest
    else if b < 0xF0 then utf8Tail3 b rest
    else if b < 0xF5 then utf8Tail4 b rest
    else none

theorem utf8Tail2_length {b : Nat} {l : List Nat} {c : Char} {r : List Nat}
    (h : utf8Tail2 b l = some (c, r)) : r.length < l.length := by
  match l with
  | [] => cases h
  | b2 :: t =>
    rw [utf8Tail2.eq_1] at h
    split at h
    · simp only [Option.some.injEq, Prod.mk.injEq] at h
      obtain ⟨-, rfl⟩ := h
      simp only [List.length_cons]
      omega
    · cases h

theorem utf8Tail3_length {b : Nat} {l : List Nat} {c : Char} {r : List Nat}
    (h : utf8Tail3 b l = some (c, r)) : r.length < l.length := by
  match l with
  | [] => cases h
  | [b2] => cases h
  | b2 :: b3 :: t =>
    rw [utf8Tail3.eq_1] at h
    split at h
    · simp only [Option.some.injEq, Prod.mk.injEq] at h
      obtain ⟨-, rfl⟩ := h
      simp only [List.length_cons]
      omega
    · cases h

theorem utf8Tail4_length {b : Nat} {l : List Nat} {c : Char} {r : List Nat}
    (h : utf8Tail4 b l = some (c, r)) : r.length < l.length := by
  match l with
  | [] => cases h
  | [b2] => cases h
  | [b2, b3] => cases h
  | b2 :: b3 :: b4 :: t =>
    rw [utf8Tail4.eq_1] at h
    split at h
    · simp only [Option.some.injEq, Prod.mk.injEq] at h
      obtain ⟨-, rfl⟩ := h
      simp only [List.length_cons]
      omega
    · cases h

theorem utf8DecodeStep_length {l : List Nat} {c : Char} {r : List Nat}
    (h : utf8DecodeStep l = some (c, r)) : r.length < l.length := by
  match l with
  | [] => cases h
  | b :: rest =>
    rw [utf8DecodeStep.eq_2] at h
    repeat' split at h
    all_goals first
      | (simp only [Option.some.injEq, Prod.mk.injEq] at h
         obtain ⟨-, rfl⟩ := h
         simp only [List.length_cons]
         omega)
      | (have hlen := utf8Tail2_length h
         simp only [List.length_cons]
         omega)
      | (have hlen := utf8Tail3_length h
         simp only [List.length_cons]
         omega)
      | (have hlen := utf8Tail4_length h
         simp only [List.length_cons]
         omega)
      | cases h

/-- Strict UTF-8 decoding of a whole byte list (Rust `String::from_utf8`). -/
def utf8Decode (l : List Nat) : Option (List Char) :=
  match hs : utf8DecodeStep l with
  | some (c, r) => (utf8Decode r).map (fun cs => c :: cs)
  | none => if l = [] then some [] else none
termination_by l.length
decreasing_by exact utf8DecodeStep_length hs

theorem utf8DecodeStep_nil : utf8DecodeStep [] = none := rfl

theorem utf8Decode_nil : utf8Decode [] = some [] := by
  rw [utf8Decode.eq_def]
  split
  · next c r hs =>
    rw [utf8DecodeStep_nil] at hs
    cases hs
  · rw [if_pos rfl]

theorem utf8Decode_of_step {l : List Nat} {c : Char} {r : List Nat}
    (h : utf8DecodeStep l = some (c, r)) :
    utf8Decode l = (utf8Decode r).map (fun cs => c :: cs) := by
  rw [utf8Decode.eq_def]
  split
  · next c2 r2 hs =>
    rw [h] at hs
    simp only [Option.some.injEq, Prod.mk.injEq] at hs
    obtain ⟨rfl, rfl⟩ := hs
    rfl
  · next hs =>
    rw [h] at hs
    cases hs

theorem utf8Decode_none_of_step {l : List Nat} (hne : l ≠ [])
    (h : utf8DecodeStep l = none) : utf8Decode l = none := by
  rw [utf8Decode.eq_def]
  split
  · next c2 r2 hs =>
    rw [h] at hs
    cases hs
  · exact if_neg hne

/-- The byte set `urlencoding::encode` leaves unescaped:
ASCII alphanumerics and `-`, `.`, `_`, `~`. -/
def isUnreservedByte (b : Nat) : Prop :=
  (0x41 ≤ b ∧ b ≤ 0x5A) ∨ (0x61 ≤ b ∧ b ≤ 0x7A) ∨ (0x30 ≤ b ∧ b ≤ 0x39) ∨
    b = 0x2D ∨ b = 0x2E ∨ b = 0x5F ∨ b = 0x7E

instance (b : Nat) : Decidable (isUnreservedByte b) := by
  unfold isUnreservedByte
  infer_instance

/-- Uppercase hex digit byte for a nibble, as `urlencoding::encode` emits. -/
def hexDigit (n : Nat) : Nat := if n < 10 then 0x30 + n else 0x41 + (n - 10)

/-- Hex digit byte back to its value; accepts both cases, as
`urlencoding::decode` does. -/
def fromHexDigit (b : Nat) : Option Nat :=
  if 0x30 ≤ b ∧ b ≤ 0x39 then some (b - 0x30)
  else if 0x41 ≤ b ∧ b ≤ 0x46 then some (b - 0x37)
  else if 0x61 ≤ b ∧ b ≤ 0x66 then some (b - 0x57)
  else none

/-- Percent-encoding of one byte (`urlencoding::encode`, per input byte). -/
def encodeByte (b : Nat) : List Nat :=
  if isUnreservedByte b then [b] else [0x25, hexDigit (b / 16), hexDigit (b % 16)]

/-- Percent-decoding at the byte level (`urlencoding::decode_binary`):
a `%` followed by two hex digits becomes that byte; a malformed `%`
sequence is copied through unchanged. -/
def decodeBinary : List Nat → List Nat
  | [] => []
  | b :: rest =>
    if b = 0x25 then
      match hr : rest with
      | h :: l :: rest2 =>
        match fromHexDigit h, fromHexDigit l with
        | some hv, some lv => (hv * 16 + lv) :: decodeBinary rest2
        | _, _ => b :: decodeBinary rest
      | _ => b :: decodeBinary rest
    else b :: decodeBinary rest
termination_by l => l.length
decreasing_by all_goals first
  | (subst hr; simp only [List.length_cons]; omega)
  | (simp only [List.length_cons]; omega)

/-- `urlencoding::encode` on a string, producing the slug's bytes. -/
def urlencodeBytes (t : Str) : List Nat := (utf8Bytes t).flatMap encodeByte

/-- `urlencoding::encode` producing the slug as a string (its bytes are
all ASCII, so each byte is one character). -/
def urlencode (t : Str) : Str := (urlencodeBytes t).map Char.ofNat

/-- `urlencoding::decode` on a slug string: percent-decode its UTF-8 bytes,
then require the result to be valid UTF-8 (`Err` modelled as `none`). -/
def urldecode (s : Str) : Option Str := utf8Decode (decodeBinary (utf8Bytes s))

/-- `Article::path` (main.rs:46-48): the directory name for a title is its
url-encoded slug. -/
def articlePath (title : Str) : Str := urlencode title

end Tome

namespace Tome

/-! ### Codec lemmas -/

theorem utf8DecodeStep_encodeChar (c : Char) (bs : List Nat) :
    utf8DecodeStep (utf8EncodeChar c ++ bs) = some (c, bs) := by
  have hv : c.toNat < 0xD800 ∨ (0xDFFF < c.toNat ∧ c.toNat < 0x110000) := c.valid
  have hofn : Char.ofNat c.toNat = c := Char.ofNat_toNat c
  simp only [utf8EncodeChar]
  by_cases h1 : c.toNat < 0x80
  · rw [if_pos h1]
    simp only [List.cons_append, List.nil_append]
    rw [utf8DecodeStep.eq_2, if_pos h1, hofn]
  · by_cases h2 : c.toNat < 0x800
    · rw [if_neg h1, if_pos h2]
      simp only [List.cons_append, List.nil_append]
      rw [utf8DecodeStep.eq_2, if_neg (by omega), if_neg (by omega), if_pos (by omega)]
      rw [utf8Tail2.eq_1]
      rw [if_pos (show isCont (0x80 + c.toNat % 64) from ⟨by omega, by omega⟩)]
      rw [show utf8Val2 (0xC0 + c.toNat / 64) (0x80 + c.toNat % 64) = c.toNat from by
        unfold utf8Val2; omega]
      rw [hofn]
    · by_cases h3 : c.toNat < 0x10000
      · rw [if_neg h1, if_neg h2, if_pos h3]
        simp only [List.cons_append, List.nil_append]
        rw [utf8DecodeStep.eq_2, if_neg (by omega), if_neg (by omega), if_neg (by omega),
          if_pos (by omega)]
        rw [utf8Tail3.eq_1]
        have hval : utf8Val3 (0xE0 + c.toNat / 4096) (0x80 + c.toNat / 64 % 64)
            (0x80 + c.toNat % 64) = c.toNat := by
          unfold utf8Val3; omega
        rw [if_pos (by
          refine ⟨⟨by omega, by omega⟩, ⟨by omega, by omega⟩, ?_, ?_⟩ <;> rw [hval] <;> omega)]
        rw [hval, hofn]
      · rw [if_neg h1, if_neg h2, if_neg h3]
        simp only [List.cons_append, List.nil_append]
        rw [utf8DecodeStep.eq_2, if_neg (by omega), if_neg (by omega), if_neg (by omega),
          if_neg (by omega), if_pos (by omega)]
        rw [utf8Tail4.eq_1]
        have hval : utf8Val4 (0xF0 + c.toNat / 262144) (0x80 + c.toNat / 4096 % 64)
            (0x80 + c.toNat / 64 % 64) (0x80 + c.toNat % 64) = c.toNat := by
          unfold utf8Val4; omega
        rw [if_pos (by
          refine ⟨⟨by omega, by omega⟩, ⟨by omega, by omega⟩, ⟨by omega, by omega⟩, ?_, ?_⟩ <;>
            rw [hval] <;> omega)]
        rw [hval, hofn]

theorem utf8DecodeChar_append (c : Char) (bs : List Nat) :
    utf8Decode (utf8EncodeChar c ++ bs) = (utf8Decode bs).map (fun cs => c :: cs) :=
  utf8Decode_of_step (utf8DecodeStep_encodeChar c bs)

/-- UTF-8 decoding inverts UTF-8 encoding. -/
theorem utf8Decode_utf8Bytes (s : Str) : utf8Decode (utf8Bytes s) = some s := by
  induction s with
  | nil => exact utf8Decode_nil
  | cons c cs ih =>
    simp only [utf8Bytes, List.flatMap_cons] at *
    rw [utf8DecodeChar_append, ih, Option.map_some']

theorem encodeByte_ascii {b x : Nat} (hb : b < 256) (hx : x ∈ encodeByte b) : x < 0x80 := by
  unfold encodeByte at hx
  by_cases h : isUnreservedByte b
  · rw [if_pos h] at hx
    simp only [List.mem_singleton] at hx
    subst hx
    unfold isUnreservedByte at h
    omega
  · rw [if_neg h] at hx
    simp only [hexDigit, List.mem_cons, List.mem_singleton, List.not_mem_nil, or_false] at hx
    rcases hx with h | h | h
    · omega
    · split at h <;> omega
    · split at h <;> omega

theorem utf8EncodeChar_ascii {b : Nat} (hb : b < 0x80) :
    utf8EncodeChar (Char.ofNat b) = [b] := by
  have hv : Nat.isValidChar b := Or.inl (by omega)
  have ht : (Char.ofNat b).toNat = b := by
    rw [Char.ofNat, dif_pos hv]
    rfl
  unfold utf8EncodeChar
  rw [ht, if_pos hb]

/-- ASCII byte lists survive the string round trip untouched. -/
theorem utf8Bytes_map_ofNat {bs : List Nat} (h : ∀ b ∈ bs, b < 0x80) :
    utf8Bytes (bs.map Char.ofNat) = bs := by
  induction bs with
  | nil => rfl
  | cons b rest ih =>
    simp only [List.map_cons, utf8Bytes, List.flatMap_cons]
    rw [utf8EncodeChar_ascii (h b (List.mem_cons_self b rest))]
    simp only [List.cons_append, List.nil_append, List.cons.injEq, true_and]
    exact ih (fun x hx => h x (List.mem_cons_of_mem b hx))

theorem fromHexDigit_hexDigit {n : Nat} (h : n < 16) :
    fromHexDigit (hexDigit n) = some n := by
  unfold fromHexDigit hexDigit
  by_cases h10 : n < 10
  · rw [if_pos h10, if_pos (by omega)]
    exact congrArg some (by omega)
  · rw [if_neg h10, if_neg (by omega), if_pos (by omega)]
    exact congrArg some (by omega)

theorem decodeBinary_cons {b : Nat} (t : List Nat) (hb : b ≠ 0x25) :
    decodeBinary (b :: t) = b :: decodeBinary t := by
  rw [decodeBinary.eq_def]
  simp only [if_neg hb]

theorem decodeBinary_percent {h l hv lv : Nat} (t : List Nat)
    (hh : fromHexDigit h = some hv) (hl : fromHexDigit l = some lv) :
    decodeBinary (0x25 :: h :: l :: t) = (hv * 16 + lv) :: decodeBinary t := by
  rw [decodeBinary.eq_def]
  simp only [if_pos rfl, hh, hl, if_true]

/-- Percent-decoding inverts per-byte percent-encoding. -/
theorem decodeBinary_encode {bs : List Nat} (h : ∀ b ∈ bs, b < 256) :
    decodeBinary (bs.flatMap encodeByte) = bs := by
  induction bs with
  | nil => rw [List.flatMap_nil, decodeBinary]
  | cons b rest ih =>
    have hb : b < 256 := h b (List.mem_cons_self b rest)
    have ihr := ih (fun x hx => h x (List.mem_cons_of_mem b hx))
    simp only [List.flatMap_cons]
    by_cases hu : isUnreservedByte b
    · rw [show encodeByte b = [b] from by unfold encodeByte; rw [if_pos hu]]
      have hne : ¬ b = 0x25 := by
        unfold isUnreservedByte at hu
        omega
      simp only [List.cons_append, List.nil_append]
      rw [decodeBinary_cons _ hne, ihr]
    · rw [show encodeByte b = [0x25, hexDigit (b / 16), hexDigit (b % 16)] from by
        unfold encodeByte; rw [if_neg hu]]
      simp only [List.cons_append, List.nil_append]
      rw [decodeBinary_percent _ (fromHexDigit_hexDigit (show b / 16 < 16 from by omega))
        (fromHexDigit_hexDigit (show b % 16 < 16 from by omega))]
      rw [show b / 16 * 16 + b % 16 = b from by omega, ihr]

theorem utf8EncodeChar_lt256 {c : Char} {b : Nat} (hb : b ∈ utf8EncodeChar c) : b < 256 := by
  have hv : c.toNat < 0xD800 ∨ (0xDFFF < c.toNat ∧ c.toNat < 0x110000) := c.valid
  unfold utf8EncodeChar at hb
  split at hb
  · simp only [List.mem_singleton] at hb
    omega
  · split at hb
    · simp only [List.mem_cons, List.mem_singleton, List.not_mem_nil, or_false] at hb
      rcases hb with h | h <;> omega
    · split at hb
      · simp only [List.mem_cons, List.mem_singleton, List.not_mem_nil, or_false] at hb
        rcases hb with h | h | h <;> omega
      · simp only [List.mem_cons, List.mem_singleton, List.not_mem_nil, or_false] at hb
        rcases hb with h | h | h | h <;> omega

theorem utf8Bytes_lt256 {s : Str} {b : Nat} (hb : b ∈ utf8Bytes s) : b < 256 := by
  simp only [utf8Bytes, List.mem_flatMap] at hb
  obtain ⟨c, _, hc⟩ := hb
  exact utf8EncodeChar_lt256 hc

/-- The slug round trip at the core of the codec: decoding an encoded title
recovers it exactly. -/
theorem urldecode_urlencode (t : Str) : urldecode (urlencode t) = some t := by
  unfold urldecode urlencode
  rw [utf8Bytes_map_ofNat (fun b hb => by
    simp only [urlencodeBytes, List.mem_flatMap] at hb
    obtain ⟨x, hxmem, hx⟩ := hb
    exact encodeByte_ascii (utf8Bytes_lt256 hxmem) hx)]
  unfold urlencodeBytes
  rw [decodeBinary_encode (fun b hb => utf8Bytes_lt256 hb)]
  exact utf8Decode_utf8Bytes t

end Tome

namespace Tome

/-! ## Filesystem model for `content/articles`

One association-list entry per article directory, keyed by the encoded slug;
each directory holds its files in `read_dir` order. -/

/-- One file in an article directory: name, content and modification time. -/
structure Entry where
  name : Str
  content : Str
  mtime : Nat
deriving DecidableEq

/-- The `content/articles` tree. -/
structure FS where
  articles : List (Str × List Entry)
deriving DecidableEq

/-- `tokio::fs::read_dir` on an article directory. -/
def FS.readDir (fs : FS) (d : Str) : Option (List Entry) :=
  (fs.articles.find? (fun p => decide (p.1 = d))).map (fun p => p.2)

/-- `tokio::fs::create_dir`: no-op when the directory exists (the caller
ignores the error, main.rs:51), else creates it empty. -/
def FS.createDir (fs : FS) (d : Str) : FS :=
  if fs.articles.any (fun p => decide (p.1 = d)) then fs
  else ⟨fs.articles ++ [(d, [])]⟩

/-- Writing a file into a directory listing: overwrite in place when the name
exists, else append a new entry. -/
def writeEntry (es : List Entry) (n c : Str) (t : Nat) : List Entry :=
  if es.any (fun e => decide (e.name = n)) then
    es.map (fun e => if e.name = n then ⟨n, c, t⟩ else e)
  else es ++ [⟨n, c, t⟩]

/-- `tokio::fs::write`: fails (`Err`, modelled `none`) when the parent
directory is absent. -/
def FS.writeFile (fs : FS) (d n c : Str) (t : Nat) : Option FS :=
  if fs.articles.any (fun p => decide (p.1 = d)) then
    some ⟨fs.articles.map (fun p => if p.1 = d then (p.1, writeEntry p.2 n c t) else p)⟩
  else none

/-- `tokio::fs::read_to_string` of one file, `Err` as `none`. -/
def FS.readFile (fs : FS) (d n : Str) : Option Str :=
  (fs.readDir d).bind
    (fun es => (es.find? (fun e => decide (e.name = n))).map (fun e => e.content))

/-! ## The revision store (`impl Article`, main.rs:45-119) -/

/-- The `.md` file extension. -/
def mdExt : Str := ['.', 'm', 'd']

/-- Stem of the current-alias file name. -/
def currentStem : Str := ['c', 'u', 'r', 'r', 'e', 'n', 't']

/-- The fixed alias file name `current.md` (main.rs:64). -/
def currentFile : Str := currentStem ++ mdExt

/-- `Article::write_to_disk` (main.rs:50-68): ensure the directory, write the
fresh revision file `{uuid}.md`, then write the alias `current.md` with the
same content. `fresh` stands for the hyphenated v4 uuid, `now` for the
write's modification time. -/
def writeToDisk (fs : FS) (title content fresh : Str) (now : Nat) : Option FS :=
  ((fs.createDir (articlePath title)).writeFile (articlePath title)
      (fresh ++ mdExt) content now).bind
    (fun fs2 => fs2.writeFile (articlePath title) currentFile content now)

/-- `Article::load` (main.rs:70-79): read `{slug}/current.md`; any error is
`None`. -/
def load (fs : FS) (title : Str) : Option Str :=
  fs.readFile (urlencode title) currentFile

/-- `Article::load_version` (main.rs:81-93): read `{slug}/{version}.md`. -/
def loadVersion (fs : FS) (title version : Str) : Option Str :=
  fs.readFile (urlencode title) (version ++ mdExt)

/-- Rust `str::replace(".md", "")` (main.rs:113): drop every non-overlapping
leftmost occurrence of `.md`. -/
def replaceMd : Str → Str
  | '.' :: 'm' :: 'd' :: rest => replaceMd rest
  | c :: rest => c :: replaceMd rest
  | [] => []

/-- `Article::get_versions` (main.rs:95-118): `read_dir(...).unwrap()` panics
(`Except.error ()`) when the directory is absent; otherwise keep the `.md`
entries in directory order as `(name without ".md", modification time)`. -/
def getVersions (fs : FS) (title : Str) : Except Unit (List (Str × Nat)) :=
  match fs.readDir (urlencode title) with
  | none => Except.error ()
  | some es =>
    Except.ok ((es.filter (fun e => mdExt.isSuffixOf e.name)).map
      (fun e => (replaceMd e.name, e.mtime)))

/-! ## History (`article_history`, main.rs:184-203) -/

/-- Insertion step of a stable ascending sort by modification time. -/
def insertByTime (x : Str × Nat) : List (Str × Nat) → List (Str × Nat)
  | [] => [x]
  | y :: ys => if y.2 < x.2 then y :: insertByTime x ys else x :: y :: ys

/-- Stable ascending sort by modification time: the model of
`versions.sort_by_key(|(_, edited)| *edited)` (Rust's sort is stable, and a
stable ascending sort's output is unique). -/
def sortByTime : List (Str × Nat) → List (Str × Nat)
  | [] => []
  | x :: xs => insertByTime x (sortByTime xs)

/-- `article_history` (main.rs:184-203) up to timestamp formatting:
`get_versions`, stable `sort_by_key` on modification time, then `reverse`.
The RFC 2822 formatting map (main.rs:191-201) is positional and
order-preserving, so the pairs here carry the pre-format timestamps. -/
def articleHistory (fs : FS) (title : Str) : Except Unit (List (Str × Nat)) :=
  (getVersions fs title).map (fun vs => (sortByTime vs).reverse)

/-! ## Handlers (main.rs:175-227) -/

/-- What `get_article` responds with. -/
inductive Response where
  | article (title content : Str)
  | redirectEdit (title : Str)
deriving DecidableEq

/-- `get_article` (main.rs:175-182): `urlencoding::decode(&title).unwrap()`
panics on a decode error — modelled as `Except.error ()`; otherwise render
the loaded article or redirect to the editor. -/
def getArticle (fs : FS) (slug : Str) : Except Unit Response :=
  match urldecode slug with
  | none => Except.error ()
  | some title =>
    match load fs title with
    | some content => Except.ok (Response.article title content)
    | none => Except.ok (Response.redirectEdit title)

end Tome

namespace Tome

/-! ## Markdown renderer (src/filters.rs)

`custom_md` is modelled at the level of `pulldown_cmark` events: the parse
stream is a list of events, and the repository code is (a) the broken-link
callback and (b) the per-event rewrite closure (filters.rs:25-43). -/

/-- `pulldown_cmark::LinkType`. The `Unknown` variants are produced only when
the broken-link callback resolves a reference-style link lacking a
definition: `[text][label]` gives `referenceUnknown`, `[label][]` gives
`collapsedUnknown`, and a bare `[label]` gives `shortcutUnknown`. -/
inductive LinkType where
  | inline
  | reference
  | referenceUnknown
  | collapsed
  | collapsedUnknown
  | shortcut
  | shortcutUnknown
  | autolink
  | email
deriving DecidableEq

/-- The `pulldown_cmark::Tag`s relevant to the filter; `link` carries
(link type, destination, title). -/
inductive Tag where
  | paragraph
  | heading (level : Nat)
  | blockQuote
  | codeBlock (info : Str)
  | item
  | emphasis
  | strong
  | strikethrough
  | table
  | link (lt : LinkType) (dest : Str) (title : Str)
  | image (lt : LinkType) (dest : Str) (title : Str)
deriving DecidableEq

/-- `pulldown_cmark::Event`. -/
inductive Event where
  | start (t : Tag)
  | stop (t : Tag)
  | text (s : Str)
  | code (s : Str)
  | html (s : Str)
  | softBreak
  | hardBreak
  | rule
deriving DecidableEq

/-- The internal document-read route prefix used by the filter
(filters.rs:30). -/
def articleRoute : Str := ['/', 'a', 'r', 't', 'i', 'c', 'l', 'e', '/']

/-- `handle_broken_link` (filters.rs:11-13): answer the callback with the
link's literal reference as both destination and title. -/
def handle_broken_link (reference : Str) : Option (Str × Str) :=
  some (reference, reference)

/-- Modelled from pulldown_cmark's documented callback protocol: for a
reference-style link with label `label` and no matching definition, the
parser consults the broken-link callback, and `some (dest, title)` makes it
emit `Event.start (Tag.link variant dest title)` for the corresponding
unresolved variant. -/
def brokenLinkStart (variant : LinkType) (label : Str) : Option Event :=
  (handle_broken_link label).map (fun p => Event.start (Tag.link variant p.1 p.2))

/-- The per-event closure inside `custom_md` (filters.rs:25-43): on
`Event::Start(Tag::Link(..))`, prefix the destination with `/article/` when
and only when the link type is `ShortcutUnknown`; every other event is
passed through. -/
def customMdEvent (e : Event) : Event :=
  match e with
  | Event.start tag =>
    Event.start
      (match tag with
        | Tag.link linkType dest title =>
          Tag.link linkType
            (if linkType = LinkType.shortcutUnknown then articleRoute ++ dest else dest)
            title
        | t => t)
  | e => e

/-- `custom_md`'s transform of the whole event stream. -/
def customMdEvents (es : List Event) : List Event := es.map customMdEvent

/-! ## Media uploads (src/media.rs) -/

/-- One multipart field of a `POST /media` request, with its field name,
client-supplied file name, and payload bytes. -/
structure MediaField where
  name : Str
  fileName : Str
  payload : Str
deriving DecidableEq

/-- `content/media` as a lookup from path to file content. -/
def MediaFS : Type := Str → Option Str

/-- The multipart field name `post_media` accepts. -/
def imageFieldName : Str := ['i', 'm', 'a', 'g', 'e']

/-- The media storage directory prefix of `post_media`'s write
(media.rs:48). -/
def mediaDirPrefix : Str :=
  ['c', 'o', 'n', 't', 'e', 'n', 't', '/', 'm', 'e', 'd', 'i', 'a', '/']

/-- Where an accepted upload is stored: `content/media/{file_name}`, the
file name taken verbatim (media.rs:48). -/
def mediaPath (fileName : Str) : Str := mediaDirPrefix ++ fileName

/-- The acceptance test of `post_media` (media.rs:40-45): field named
`image` and file name ending with one of the configured
`allowed_uploads` suffixes. -/
def acceptField (allowed : List Str) (f : MediaField) : Bool :=
  decide (f.name = imageFieldName) && allowed.any (fun e => e.isSuffixOf f.fileName)

/-- `tokio::fs::write` into media storage. -/
def writeMedia (m : MediaFS) (p d : Str) : MediaFS :=
  fun q => if q = p then some d else m q

/-- `post_media`'s multipart loop (media.rs:37-52): write each accepted
field's payload at `content/media/{file_name}`; skip every other field. -/
def postMedia (allowed : List Str) : List MediaField → MediaFS → MediaFS
  | [], m => m
  | f :: rest, m =>
    postMedia allowed rest
      (if acceptField allowed f then writeMedia m (mediaPath f.fileName) f.payload else m)

end Tome

namespace Tome

/-! ### Store lemmas -/

theorem replaceMd_cons_ne {c : Char} (t : Str) (hc : c ≠ '.') :
    replaceMd (c :: t) = c :: replaceMd t := by
  rcases t with _ | ⟨c2, t2⟩
  · simp [replaceMd]
  · rcases t2 with _ | ⟨c3, t3⟩
    · simp only [replaceMd]
    · rw [replaceMd.eq_def]
      split
      · next heq =>
        rw [List.cons.injEq] at heq
        exact absurd heq.1 hc
      · next heq =>
        cases heq
        rfl
      · next heq => cases heq

/-- Stripping the `.md` suffix from a dot-free stem recovers the stem. -/
theorem replaceMd_append_mdExt {l : Str} (h : '.' ∉ l) : replaceMd (l ++ mdExt) = l := by
  induction l with
  | nil => decide
  | cons c rest ih =>
    have hc : c ≠ '.' := fun hceq => h (hceq ▸ List.mem_cons_self c rest)
    have hr : '.' ∉ rest := fun hmem => h (List.mem_cons_of_mem c hmem)
    rw [List.cons_append, replaceMd_cons_ne _ hc, ih hr]

theorem isSuffixOf_append_mdExt (l : Str) : mdExt.isSuffixOf (l ++ mdExt) = true := by
  simp [List.isSuffixOf]

end Tome

namespace Tome

theorem any_key_of_readDir {fs : FS} {d : Str} {es : List Entry}
    (h : fs.readDir d = some es) :
    fs.articles.any (fun p => decide (p.1 = d)) = true := by
  unfold FS.readDir at h
  rw [Option.map_eq_some'] at h
  obtain ⟨p0, hfind, -⟩ := h
  rw [List.any_eq_true]
  have hp := List.find?_some hfind
  exact ⟨p0, List.mem_of_find?_eq_some hfind, hp⟩

theorem createDir_existing {fs : FS} {d : Str} {es : List Entry}
    (h : fs.readDir d = some es) : fs.createDir d = fs := by
  unfold FS.createDir
  rw [if_pos (any_key_of_readDir h)]

theorem readDir_createDir_new {fs : FS} {d : Str} (h : fs.readDir d = none) :
    (fs.createDir d).readDir d = some [] := by
  have hfind : fs.articles.find? (fun p => decide (p.1 = d)) = none := by
    unfold FS.readDir at h
    exact Option.map_eq_none'.mp h
  have hany : fs.articles.any (fun p => decide (p.1 = d)) = false := by
    rw [List.any_eq_false]
    intro p hp hpd
    rw [List.find?_eq_none] at hfind
    exact hfind p hp hpd
  unfold FS.createDir
  rw [if_neg (by rw [hany]; exact Bool.false_ne_true)]
  unfold FS.readDir
  rw [List.find?_append, hfind, Option.none_or]
  simp [List.find?]

theorem readDir_createDir_other {fs : FS} {d d2 : Str} (hne : d2 ≠ d) :
    (fs.createDir d).readDir d2 = fs.readDir d2 := by
  unfold FS.createDir
  split
  · rfl
  · unfold FS.readDir
    rw [List.find?_append]
    have : List.find? (fun p => decide (p.1 = d2)) [(d, ([] : List Entry))] = none := by
      simp [List.find?, hne.symm]
    rw [this, Option.or_none]

theorem writeFile_eq {fs : FS} {d : Str} {es : List Entry} (h : fs.readDir d = some es)
    (n c : Str) (t : Nat) :
    fs.writeFile d n c t =
      some ⟨fs.articles.map (fun p => if p.1 = d then (p.1, writeEntry p.2 n c t) else p)⟩ := by
  unfold FS.writeFile
  rw [if_pos (any_key_of_readDir h)]

theorem readDir_mapWrite_self {fs : FS} {d : Str} {es : List Entry}
    (h : fs.readDir d = some es) (n c : Str) (t : Nat) :
    (FS.mk (fs.articles.map (fun p => if p.1 = d then (p.1, writeEntry p.2 n c t) else p))).readDir
        d = some (writeEntry es n c t) := by
  unfold FS.readDir at h ⊢
  rw [Option.map_eq_some'] at h
  obtain ⟨p0, hfind, hsnd⟩ := h
  have hp0 : p0.1 = d := by
    have := List.find?_some hfind
    simpa using this
  rw [List.find?_map]
  have hpred : ((fun p : Str × List Entry => decide (p.1 = d)) ∘
      (fun p => if p.1 = d then (p.1, writeEntry p.2 n c t) else p)) =
      (fun p => decide (p.1 = d)) := by
    funext p
    by_cases hp : p.1 = d
    · simp [hp]
    · simp [hp]
  rw [hpred, hfind]
  simp only [Option.map_some']
  rw [if_pos hp0, hsnd]

theorem readDir_mapWrite_other {fs : FS} {d d2 : Str} (hne : d2 ≠ d) (n c : Str) (t : Nat) :
    (FS.mk (fs.articles.map (fun p => if p.1 = d then (p.1, writeEntry p.2 n c t) else p))).readDir
        d2 = fs.readDir d2 := by
  unfold FS.readDir
  rw [List.find?_map]
  have hpred : ((fun p : Str × List Entry => decide (p.1 = d2)) ∘
      (fun p => if p.1 = d then (p.1, writeEntry p.2 n c t) else p)) =
      (fun p => decide (p.1 = d2)) := by
    funext p
    by_cases hp : p.1 = d
    · simp [hp, hne.symm, hp ▸ hne.symm]
    · simp [hp]
  rw [hpred]
  cases hfind : List.find? (fun p => decide (p.1 = d2)) fs.articles with
  | none => rfl
  | some q =>
    have hq : q.1 = d2 := by
      have := List.find?_some hfind
      simpa using this
    simp only [Option.map_some']
    rw [if_neg (hq ▸ hne)]

theorem find?_writeEntry_self (es : List Entry) (n c : Str) (t : Nat) :
    (writeEntry es n c t).find? (fun e => decide (e.name = n)) = some ⟨n, c, t⟩ := by
  unfold writeEntry
  split
  · next hany =>
    induction es with
    | nil => cases hany
    | cons e es2 ih =>
      by_cases he : e.name = n
      · simp [List.find?, he]
      · have hany2 : es2.any (fun e => decide (e.name = n)) = true := by
          rw [List.any_cons] at hany
          simpa [he] using hany
        simp only [List.map_cons, if_neg he]
        rw [List.find?_cons_of_neg _ (by simpa using he)]
        exact ih hany2
  · next hany =>
    rw [List.find?_append]
    have hnone : es.find? (fun e => decide (e.name = n)) = none := by
      rw [List.find?_eq_none]
      intro e he hed
      rw [Bool.not_eq_true] at hany
      rw [List.any_eq_false] at hany
      exact hany e he hed
    rw [hnone, Option.none_or]
    simp [List.find?]

theorem find?_overwrite_other (es : List Entry) (n c : Str) (t : Nat) {m : Str} (hm : m ≠ n) :
    List.find? (fun e => decide (e.name = m))
        (es.map (fun e => if e.name = n then ⟨n, c, t⟩ else e)) =
      List.find? (fun e => decide (e.name = m)) es := by
  induction es with
  | nil => rfl
  | cons e es2 ih =>
    simp only [List.map_cons]
    by_cases he : e.name = n
    · have hnm : ¬ (n = m) := fun h => hm h.symm
      have henm : ¬ (e.name = m) := fun h => hm (he.symm.trans h).symm
      rw [if_pos he]
      rw [List.find?_cons_of_neg _ (by simpa using hnm)]
      rw [List.find?_cons_of_neg _ (by simpa using henm)]
      exact ih
    · rw [if_neg he]
      by_cases hem : e.name = m
      · rw [List.find?_cons_of_pos _ (by simpa using hem),
          List.find?_cons_of_pos _ (by simpa using hem)]
      · rw [List.find?_cons_of_neg _ (by simpa using hem),
          List.find?_cons_of_neg _ (by simpa using hem)]
        exact ih

theorem find?_writeEntry_other (es : List Entry) (n c : Str) (t : Nat) {m : Str} (hm : m ≠ n) :
    (writeEntry es n c t).find? (fun e => decide (e.name = m)) =
      es.find? (fun e => decide (e.name = m)) := by
  unfold writeEntry
  split
  · exact find?_overwrite_other es n c t hm
  · rw [List.find?_append]
    have : List.find? (fun e => decide (e.name = m)) ([⟨n, c, t⟩] : List Entry) = none := by
      simp only [List.find?]
      rw [decide_eq_false (fun h : n = m => hm h.symm)]
    rw [this, Option.or_none]

theorem mem_writeEntry_self (es : List Entry) (n c : Str) (t : Nat) :
    (⟨n, c, t⟩ : Entry) ∈ writeEntry es n c t := by
  unfold writeEntry
  split
  · next hany =>
    rw [List.any_eq_true] at hany
    obtain ⟨e, he, hed⟩ := hany
    rw [List.mem_map]
    refine ⟨e, he, ?_⟩
    rw [if_pos (by simpa using hed)]
  · exact List.mem_append_right _ (List.mem_singleton.mpr rfl)

theorem mem_writeEntry_other {es : List Entry} {e : Entry} (he : e ∈ es) (n c : Str) (t : Nat)
    (hne : e.name ≠ n) : e ∈ writeEntry es n c t := by
  unfold writeEntry
  split
  · rw [List.mem_map]
    refine ⟨e, he, ?_⟩
    rw [if_neg hne]
  · exact List.mem_append_left _ he

theorem readFile_of_readDir {fs : FS} {d : Str} {es : List Entry}
    (h : fs.readDir d = some es) (n : Str) :
    fs.readFile d n = (es.find? (fun e => decide (e.name = n))).map (fun e => e.content) := by
  unfold FS.readFile
  rw [h]
  rfl

theorem getVersions_of_readDir {fs : FS} {title : Str} {es : List Entry}
    (h : fs.readDir (urlencode title) = some es) :
    getVersions fs title =
      Except.ok ((es.filter (fun e => mdExt.isSuffixOf e.name)).map
        (fun e => (replaceMd e.name, e.mtime))) := by
  unfold getVersions
  rw [h]

theorem getVersions_of_readDir_none {fs : FS} {title : Str}
    (h : fs.readDir (urlencode title) = none) :
    getVersions fs title = Except.error () := by
  unfold getVersions
  rw [h]

end Tome

namespace Tome

/-- Full characterization of `Article::write_to_disk`: it always succeeds in
the model, the article directory afterwards holds the old entries with the
fresh revision file and the alias written on top, and no other directory
changes. -/
theorem writeToDisk_spec (fs : FS) (title content fresh : Str) (now : Nat) :
    ∃ es fs2, writeToDisk fs title content fresh now = some fs2 ∧
      fs2.readDir (urlencode title) =
        some (writeEntry (writeEntry es (fresh ++ mdExt) content now) currentFile content now) ∧
      (fs.readDir (urlencode title) = some es ∨
        (fs.readDir (urlencode title) = none ∧ es = [])) ∧
      (∀ d2, d2 ≠ urlencode title → fs2.readDir d2 = fs.readDir d2) := by
  have hpath : articlePath title = urlencode title := rfl
  obtain ⟨es, h1, hsrc, hother1⟩ :
      ∃ es, (fs.createDir (urlencode title)).readDir (urlencode title) = some es ∧
        (fs.readDir (urlencode title) = some es ∨
          (fs.readDir (urlencode title) = none ∧ es = [])) ∧
        ∀ d2, d2 ≠ urlencode title →
          (fs.createDir (urlencode title)).readDir d2 = fs.readDir d2 := by
    cases hrd : fs.readDir (urlencode title) with
    | some es0 =>
      rw [createDir_existing hrd]
      exact ⟨es0, hrd, Or.inl rfl, fun d2 _ => rfl⟩
    | none =>
      exact ⟨[], readDir_createDir_new hrd, Or.inr ⟨rfl, rfl⟩,
        fun d2 hne => readDir_createDir_other hne⟩
  set fs1 := fs.createDir (urlencode title) with hfs1
  have hw1 := writeFile_eq h1 (fresh ++ mdExt) content now
  set fsA : FS :=
    ⟨fs1.articles.map (fun p =>
      if p.1 = urlencode title then (p.1, writeEntry p.2 (fresh ++ mdExt) content now) else p)⟩
    with hfsA
  have hA : fsA.readDir (urlencode title) =
      some (writeEntry es (fresh ++ mdExt) content now) :=
    readDir_mapWrite_self h1 (fresh ++ mdExt) content now
  have hw2 := writeFile_eq hA currentFile content now
  set fs2 : FS :=
    ⟨fsA.articles.map (fun p =>
      if p.1 = urlencode title then (p.1, writeEntry p.2 currentFile content now) else p)⟩
    with hfs2
  have h2 : fs2.readDir (urlencode title) =
      some (writeEntry (writeEntry es (fresh ++ mdExt) content now) currentFile content now) :=
    readDir_mapWrite_self hA currentFile content now
  refine ⟨es, fs2, ?_, h2, hsrc, ?_⟩
  · unfold writeToDisk
    rw [hpath, ← hfs1, hw1, Option.some_bind, hw2]
  · intro d2 hne
    calc fs2.readDir d2 = fsA.readDir d2 := readDir_mapWrite_other hne currentFile content now
      _ = fs1.readDir d2 := readDir_mapWrite_other hne (fresh ++ mdExt) content now
      _ = fs.readDir d2 := hother1 d2 hne

/-- C1: append monotonicity. After `Article::write_to_disk` with a fresh,
dot-free revision id, `Article::load` returns exactly the written content,
the fresh id appears in `Article::get_versions`, and the alias file holds
the same content as the new revision file. -/
theorem append_monotonicity (fs : FS) (title content fresh : Str) (now : Nat)
    (hdot : '.' ∉ fresh) :
    ∃ fs2, writeToDisk fs title content fresh now = some fs2 ∧
      load fs2 title = some content ∧
      (∃ vs, getVersions fs2 title = Except.ok vs ∧ (fresh, now) ∈ vs) ∧
      loadVersion fs2 title fresh = some content := by
  obtain ⟨es, fs2, hw, h2, -, -⟩ := writeToDisk_spec fs title content fresh now
  set esA := writeEntry es (fresh ++ mdExt) content now with hesA
  set es3 := writeEntry esA currentFile content now with hes3
  have hload : load fs2 title = some content := by
    unfold load
    rw [readFile_of_readDir h2, find?_writeEntry_self]
    rfl
  have hmem : (⟨fresh ++ mdExt, content, now⟩ : Entry) ∈ es3 := by
    by_cases hfc : fresh ++ mdExt = currentFile
    · rw [hfc]
      exact mem_writeEntry_self esA currentFile content now
    · exact mem_writeEntry_other (mem_writeEntry_self es (fresh ++ mdExt) content now)
        currentFile content now hfc
  refine ⟨fs2, hw, hload, ⟨_, getVersions_of_readDir h2, ?_⟩, ?_⟩
  · rw [List.mem_map]
    refine ⟨⟨fresh ++ mdExt, content, now⟩, List.mem_filter.mpr ⟨hmem, ?_⟩, ?_⟩
    · exact isSuffixOf_append_mdExt fresh
    · rw [replaceMd_append_mdExt hdot]
  · unfold loadVersion
    rw [readFile_of_readDir h2]
    by_cases hfc : fresh ++ mdExt = currentFile
    · rw [hfc, find?_writeEntry_self]
      rfl
    · rw [find?_writeEntry_other _ _ _ _ hfc, find?_writeEntry_self]
      rfl

/-- Witness for C1 at a concrete write into an empty store. -/
theorem append_monotonicity_witness :
    ('.' ∉ ['u', '1']) ∧
      (∃ fs2, writeToDisk ⟨[]⟩ ['A', ' ', 'B'] ['h', 'i'] ['u', '1'] 5 = some fs2 ∧
        load fs2 ['A', ' ', 'B'] = some ['h', 'i'] ∧
        (∃ vs, getVersions fs2 ['A', ' ', 'B'] = Except.ok vs ∧ (['u', '1'], 5) ∈ vs) ∧
        loadVersion fs2 ['A', ' ', 'B'] ['u', '1'] = some ['h', 'i']) :=
  ⟨by decide, append_monotonicity ⟨[]⟩ ['A', ' ', 'B'] ['h', 'i'] ['u', '1'] 5 (by decide)⟩

end Tome

namespace Tome

theorem mem_insertByTime {a x : Str × Nat} {l : List (Str × Nat)} :
    a ∈ insertByTime x l ↔ a = x ∨ a ∈ l := by
  induction l with
  | nil => simp [insertByTime]
  | cons y ys ih =>
    unfold insertByTime
    split
    · simp only [List.mem_cons, ih]
      try tauto
    · simp only [List.mem_cons]
      try tauto

theorem mem_sortByTime {a : Str × Nat} {l : List (Str × Nat)} :
    a ∈ sortByTime l ↔ a ∈ l := by
  induction l with
  | nil => simp [sortByTime]
  | cons x xs ih =>
    simp only [sortByTime, mem_insertByTime, ih, List.mem_cons]

/-- C9: the alias file `current.md` passes `get_versions`' `.md` filter, so
after any successful write the version listing contains the id `current`
with the write's timestamp, that entry is exposed through the history
listing, it is readable through `Article::load_version`, and it yields the
newly appended content. -/
theorem current_alias_listed (fs : FS) (title content fresh : Str) (now : Nat) (fs2 : FS)
    (hw : writeToDisk fs title content fresh now = some fs2) :
    (∃ vs, getVersions fs2 title = Except.ok vs ∧ (currentStem, now) ∈ vs) ∧
      (∃ hs, articleHistory fs2 title = Except.ok hs ∧ (currentStem, now) ∈ hs) ∧
      loadVersion fs2 title currentStem = some content := by
  obtain ⟨es, fs2x, hwx, h2, -, -⟩ := writeToDisk_spec fs title content fresh now
  rw [hw] at hwx
  have heq : fs2 = fs2x := by
    injection hwx
  subst heq
  set vsl := ((writeEntry (writeEntry es (fresh ++ mdExt) content now) currentFile content
      now).filter (fun e => mdExt.isSuffixOf e.name)).map
      (fun e => (replaceMd e.name, e.mtime)) with hvsl
  have hmem : (currentStem, now) ∈ vsl := by
    rw [hvsl, List.mem_map]
    refine ⟨⟨currentFile, content, now⟩,
      List.mem_filter.mpr ⟨mem_writeEntry_self _ _ _ _,
        show mdExt.isSuffixOf currentFile = true from by decide⟩, ?_⟩
    show (replaceMd currentFile, now) = (currentStem, now)
    rw [show replaceMd currentFile = currentStem from by decide]
  have hhist : articleHistory fs2 title = Except.ok ((sortByTime vsl).reverse) := by
    unfold articleHistory
    rw [getVersions_of_readDir h2]
    rfl
  refine ⟨⟨vsl, getVersions_of_readDir h2, hmem⟩,
    ⟨(sortByTime vsl).reverse, hhist, ?_⟩, ?_⟩
  · rw [List.mem_reverse, mem_sortByTime]
    exact hmem
  · unfold loadVersion
    rw [show currentStem ++ mdExt = currentFile from rfl,
      readFile_of_readDir h2, find?_writeEntry_self]
    rfl

/-- Witness for C9: a concrete write into an empty store. -/
theorem current_alias_listed_witness :
    ∃ fs2, writeToDisk ⟨[]⟩ ['A'] ['x'] ['u'] 3 = some fs2 ∧
      ((∃ vs, getVersions fs2 ['A'] = Except.ok vs ∧ (currentStem, 3) ∈ vs) ∧
        (∃ hs, articleHistory fs2 ['A'] = Except.ok hs ∧ (currentStem, 3) ∈ hs) ∧
        loadVersion fs2 ['A'] currentStem = some ['x']) :=
  ⟨_, rfl, current_alias_listed ⟨[]⟩ ['A'] ['x'] ['u'] 3 _ rfl⟩

/-- C6 as stated fails: `current` is listed among the revisions of a stored
document, yet a later append changes what `load_version` returns for it. -/
theorem revision_immutability_counterexample :
    ∃ fs2, writeToDisk ⟨[(['T'], [⟨currentFile, ['a'], 1⟩])]⟩ ['T'] ['b'] ['u'] 2 = some fs2 ∧
      getVersions ⟨[(['T'], [⟨currentFile, ['a'], 1⟩])]⟩ ['T'] =
        Except.ok [(currentStem, 1)] ∧
      loadVersion ⟨[(['T'], [⟨currentFile, ['a'], 1⟩])]⟩ ['T'] currentStem = some ['a'] ∧
      loadVersion fs2 ['T'] currentStem ≠ some ['a'] :=
  ⟨_, rfl, by decide, by decide, by decide⟩

/-- C6 amended: revisions other than the `current` alias are immutable. For
every id listed among a document's revisions that is distinct from
`current` and from the later append's fresh id, `Article::load_version`
returns the same content before and after the append. -/
theorem revision_immutability (fs : FS) (title c2 fresh : Str) (now : Nat) (fs2 : FS)
    (rid : Str) (vs : List (Str × Nat)) (t : Nat)
    (hvs : getVersions fs title = Except.ok vs) (hid : (rid, t) ∈ vs)
    (hne1 : rid ≠ currentStem) (hne2 : rid ≠ fresh)
    (hw : writeToDisk fs title c2 fresh now = some fs2) :
    loadVersion fs2 title rid = loadVersion fs title rid := by
  obtain ⟨es, fs2x, hwx, h2, hsrc, -⟩ := writeToDisk_spec fs title c2 fresh now
  rw [hw] at hwx
  have heq : fs2 = fs2x := by
    injection hwx
  subst heq
  have hrd : fs.readDir (urlencode title) = some es := by
    rcases hsrc with h | ⟨hnone, -⟩
    · exact h
    · rw [getVersions_of_readDir_none hnone] at hvs
      cases hvs
  have hname1 : rid ++ mdExt ≠ currentFile := by
    intro h
    exact hne1 (List.append_cancel_right h)
  have hname2 : rid ++ mdExt ≠ fresh ++ mdExt := by
    intro h
    exact hne2 (List.append_cancel_right h)
  unfold loadVersion
  rw [readFile_of_readDir h2, readFile_of_readDir hrd,
    find?_writeEntry_other _ _ _ _ hname1, find?_writeEntry_other _ _ _ _ hname2]

/-- Witness for C6: a pre-existing revision `v1` survives an append. -/
theorem revision_immutability_witness :
    ∃ fs2,
      writeToDisk ⟨[(['T'], [⟨['v', '1', '.', 'm', 'd'], ['a'], 1⟩])]⟩ ['T'] ['b'] ['u'] 2 =
        some fs2 ∧
      getVersions ⟨[(['T'], [⟨['v', '1', '.', 'm', 'd'], ['a'], 1⟩])]⟩ ['T'] =
        Except.ok [(['v', '1'], 1)] ∧
      ((['v', '1'] : Str), 1) ∈ [((['v', '1'] : Str), 1)] ∧
      (['v', '1'] : Str) ≠ currentStem ∧ (['v', '1'] : Str) ≠ ['u'] ∧
      loadVersion fs2 ['T'] ['v', '1'] =
        loadVersion ⟨[(['T'], [⟨['v', '1', '.', 'm', 'd'], ['a'], 1⟩])]⟩ ['T'] ['v', '1'] :=
  ⟨_, rfl, by decide, by decide, by decide, by decide,
    revision_immutability ⟨[(['T'], [⟨['v', '1', '.', 'm', 'd'], ['a'], 1⟩])]⟩ ['T'] ['b'] ['u']
      2 _ ['v', '1'] [(['v', '1'], 1)] 1 (by decide) (by decide) (by decide) (by decide) rfl⟩

/-- C7: `get_versions` on an absent document does not return an empty
listing — the `read_dir(...).unwrap()` panics, modelled as `Except.error`. -/
theorem getVersions_absent_panics :
    getVersions ⟨[]⟩ ['M', 'i', 's', 's', 'i', 'n', 'g'] = Except.error () ∧
      ∀ (fs : FS) (title : Str), fs.readDir (urlencode title) = none →
        getVersions fs title = Except.error () :=
  ⟨by decide, fun _ _ h => getVersions_of_readDir_none h⟩

/-- Witness for C7's general clause at a concrete absent title. -/
theorem getVersions_absent_panics_witness :
    FS.readDir ⟨[]⟩ (urlencode ['X']) = none ∧
      getVersions ⟨[]⟩ ['X'] = Except.error () :=
  ⟨by decide, getVersions_absent_panics.2 ⟨[]⟩ ['X'] (by decide)⟩

end Tome

namespace Tome

/-- `edit_article` (main.rs:213-227): decode the slug with `.unwrap()`
(panic modelled as `Except.error ()`), then return the editor view with the
loaded content, or empty content when the article is absent. -/
def editArticle (fs : FS) (slug : Str) : Except Unit (Str × Str) :=
  match urldecode slug with
  | none => Except.error ()
  | some title =>
    match load fs title with
    | some content => Except.ok (title, content)
    | none => Except.ok (title, [])

/-- The directory walk of `Overview::load` (main.rs:148-161): each article
directory name is decoded with `.unwrap()` (panic modelled as
`Except.error ()`) and paired as (slug, title). -/
def overviewList : List (Str × List Entry) → Except Unit (List (Str × Str))
  | [] => Except.ok []
  | (d, _) :: rest =>
    match urldecode d with
    | none => Except.error ()
    | some t => (overviewList rest).map (fun l => (d, t) :: l)

/-- `Overview::load` over the article tree. -/
def overviewLoad (fs : FS) : Except Unit (List (Str × Str)) :=
  overviewList fs.articles

/-- C4: a malformed externally supplied slug (here `%FF`, whose percent
sequence decodes to invalid UTF-8) makes `urlencoding::decode` fail, and the
`.unwrap()` in `get_article`, `edit_article` and `Overview::load` panics —
the decode error is not treated as NotFound. -/
theorem decode_error_panics :
    urldecode ['%', 'F', 'F'] = none ∧
      (∀ fs : FS, getArticle fs ['%', 'F', 'F'] = Except.error ()) ∧
      (∀ fs : FS, editArticle fs ['%', 'F', 'F'] = Except.error ()) ∧
      overviewLoad ⟨[(['%', 'F', 'F'], [])]⟩ = Except.error () := by
  have hbytes : utf8Bytes ['%', 'F', 'F'] = [37, 70, 70] := by decide
  have hdec : urldecode ['%', 'F', 'F'] = none := by
    unfold urldecode
    rw [hbytes,
      decodeBinary_percent [] (show fromHexDigit 70 = some 15 from by decide)
        (show fromHexDigit 70 = some 15 from by decide)]
    rw [show decodeBinary [] = [] from by rw [decodeBinary]]
    exact utf8Decode_none_of_step (by decide)
      (show utf8DecodeStep [15 * 16 + 15] = none from by decide)
  refine ⟨hdec, fun fs => ?_, fun fs => ?_, ?_⟩
  · unfold getArticle
    rw [hdec]
  · unfold editArticle
    rw [hdec]
  · unfold overviewLoad overviewList
    rw [hdec]

end Tome

namespace Tome

/-- C2: slug codec round trip. For every Unicode title, decoding the slug
produced by `Article::path` (percent-encoding of the title's UTF-8 bytes)
recovers the title exactly. -/
theorem slug_codec_roundtrip (title : Str) : urldecode (articlePath title) = some title :=
  urldecode_urlencode title

/-- C3 as stated fails: for an unresolved reference of the full
`[text][label]` variant, the broken-link callback installs the literal label
as the destination and `custom_md`'s rewrite leaves it untouched — the
target is not the `/article/`-prefixed one the claim requires for every
unresolved variant. -/
theorem renderer_fallback_counterexample :
    brokenLinkStart LinkType.referenceUnknown ['x'] =
      some (Event.start (Tag.link LinkType.referenceUnknown ['x'] ['x'])) ∧
    customMdEvent (Event.start (Tag.link LinkType.referenceUnknown ['x'] ['x'])) =
      Event.start (Tag.link LinkType.referenceUnknown ['x'] ['x']) ∧
    Event.start (Tag.link LinkType.referenceUnknown ['x'] ['x']) ≠
      Event.start (Tag.link LinkType.referenceUnknown (articleRoute ++ ['x']) ['x']) := by
  refine ⟨rfl, ?_, by decide⟩
  simp [customMdEvent]

/-- C3 amended: only the shortcut variant `[label]` of an unresolved
reference gets the `/article/` prefix. For it, `custom_md` rewrites the
callback-produced event to target `/article/` ++ literal label, and the
visible label text events are left unchanged. -/
theorem renderer_fallback (label : Str) :
    (brokenLinkStart LinkType.shortcutUnknown label).map customMdEvent =
      some (Event.start
        (Tag.link LinkType.shortcutUnknown (articleRoute ++ label) label)) ∧
    customMdEvent (Event.text label) = Event.text label := by
  constructor
  · simp [brokenLinkStart, handle_broken_link, customMdEvent]
  · rfl

/-- C8: renderer passthrough. `custom_md` leaves every link event whose type
is not `ShortcutUnknown` — inline-URL links and resolved reference links of
any variant — completely unchanged, and every non-link event unchanged. -/
theorem renderer_passthrough (lt : LinkType) (dest title : Str)
    (hlt : lt = LinkType.inline ∨ lt = LinkType.reference ∨ lt = LinkType.collapsed ∨
      lt = LinkType.shortcut ∨ lt = LinkType.autolink ∨ lt = LinkType.email) :
    customMdEvent (Event.start (Tag.link lt dest title)) =
      Event.start (Tag.link lt dest title) ∧
    (∀ s : Str, customMdEvent (Event.text s) = Event.text s) ∧
    (∀ t : Tag, customMdEvent (Event.stop t) = Event.stop t) := by
  refine ⟨?_, fun s => rfl, fun t => rfl⟩
  rcases hlt with rfl | rfl | rfl | rfl | rfl | rfl <;> simp [customMdEvent]

/-- Witness for C8 at an inline link. -/
theorem renderer_passthrough_witness :
    (LinkType.inline = LinkType.inline ∨ LinkType.inline = LinkType.reference ∨
      LinkType.inline = LinkType.collapsed ∨ LinkType.inline = LinkType.shortcut ∨
      LinkType.inline = LinkType.autolink ∨ LinkType.inline = LinkType.email) ∧
    (customMdEvent (Event.start (Tag.link LinkType.inline ['d'] ['t'])) =
      Event.start (Tag.link LinkType.inline ['d'] ['t']) ∧
    (∀ s : Str, customMdEvent (Event.text s) = Event.text s) ∧
    (∀ t : Tag, customMdEvent (Event.stop t) = Event.stop t)) :=
  ⟨Or.inl rfl, renderer_passthrough LinkType.inline ['d'] ['t'] (Or.inl rfl)⟩

end Tome

namespace Tome

theorem sortByTime_sorted_id :
    ∀ {l : List (Str × Nat)}, List.Chain' (fun p q => p.2 ≤ q.2) l → sortByTime l = l
  | [], _ => rfl
  | [x], _ => rfl
  | x :: y :: ys, h => by
    rw [List.chain'_cons] at h
    show insertByTime x (sortByTime (y :: ys)) = x :: y :: ys
    rw [sortByTime_sorted_id h.2]
    unfold insertByTime
    rw [if_neg (by omega)]

/-- C5: history ordering, amended on ties. Given the listing `get_versions`
produced, `article_history` returns its stable ascending sort reversed: a
listing with weakly ascending timestamps (equal-timestamp runs included)
comes back exactly reversed — so equal-timestamp entries appear in the
REVERSE of listing order, not listing order — and strictly ascending
timestamps yield strictly descending output. -/
theorem article_history_order (fs : FS) (title : Str) (vs : List (Str × Nat))
    (hvs : getVersions fs title = Except.ok vs) :
    (List.Chain' (fun p q : Str × Nat => p.2 ≤ q.2) vs →
      articleHistory fs title = Except.ok vs.reverse) ∧
    (List.Chain' (fun p q : Str × Nat => p.2 < q.2) vs →
      articleHistory fs title = Except.ok vs.reverse ∧
        List.Chain' (fun p q : Str × Nat => q.2 < p.2) vs.reverse) := by
  have hbase : List.Chain' (fun p q : Str × Nat => p.2 ≤ q.2) vs →
      articleHistory fs title = Except.ok vs.reverse := by
    intro hc
    unfold articleHistory
    rw [hvs]
    show Except.ok ((sortByTime vs).reverse) = Except.ok vs.reverse
    rw [sortByTime_sorted_id hc]
  refine ⟨hbase, fun hlt => ⟨hbase (hlt.imp (fun a b h => Nat.le_of_lt h)), ?_⟩⟩
  exact List.chain'_reverse.mpr hlt

/-- Witness for C5 at strictly increasing write times. -/
theorem article_history_order_witness :
    getVersions ⟨[(['T'], [⟨['a', '.', 'm', 'd'], [], 1⟩, ⟨['b', '.', 'm', 'd'], [], 2⟩])]⟩
        ['T'] = Except.ok [(['a'], 1), (['b'], 2)] ∧
      List.Chain' (fun p q : Str × Nat => p.2 < q.2) [(['a'], 1), (['b'], 2)] ∧
      (articleHistory ⟨[(['T'], [⟨['a', '.', 'm', 'd'], [], 1⟩, ⟨['b', '.', 'm', 'd'], [], 2⟩])]⟩
          ['T'] = Except.ok [((['a'] : Str), 1), (['b'], 2)].reverse ∧
        List.Chain' (fun p q : Str × Nat => q.2 < p.2) [((['a'] : Str), 1), (['b'], 2)].reverse) :=
  ⟨by decide, by simp [List.chain'_cons],
    (article_history_order ⟨[(['T'], [⟨['a', '.', 'm', 'd'], [], 1⟩, ⟨['b', '.', 'm', 'd'], [], 2⟩])]⟩
      ['T'] [(['a'], 1), (['b'], 2)] (by decide)).2 (by simp [List.chain'_cons])⟩

/-- C5's tie clause as stated fails: two revisions listed at the same
timestamp come back from `article_history` in the reverse of the
`get_versions` listing order (stable ascending sort then reverse), not in
listing order. -/
theorem article_history_counterexample :
    getVersions ⟨[(['T'], [⟨['a', '.', 'm', 'd'], [], 5⟩, ⟨['b', '.', 'm', 'd'], [], 5⟩])]⟩
        ['T'] = Except.ok [(['a'], 5), (['b'], 5)] ∧
      articleHistory ⟨[(['T'], [⟨['a', '.', 'm', 'd'], [], 5⟩, ⟨['b', '.', 'm', 'd'], [], 5⟩])]⟩
        ['T'] = Except.ok [(['b'], 5), (['a'], 5)] ∧
      (Except.ok [(['b'], 5), (['a'], 5)] : Except Unit (List (Str × Nat))) ≠
        Except.ok [(['a'], 5), (['b'], 5)] := by
  refine ⟨by decide, by decide, by decide⟩

theorem postMedia_lookup (allowed : List Str) (fields : List MediaField) (m : MediaFS)
    (p : Str) :
    postMedia allowed fields m p =
      match fields.reverse.find? (fun g => acceptField allowed g &&
          decide (mediaPath g.fileName = p)) with
      | some g => some g.payload
      | none => m p := by
  induction fields generalizing m with
  | nil => rfl
  | cons f rest ih =>
    show postMedia allowed rest
        (if acceptField allowed f then writeMedia m (mediaPath f.fileName) f.payload else m) p =
      _
    rw [ih]
    simp only [List.reverse_cons, List.find?_append]
    cases hf : List.find? (fun g => acceptField allowed g && decide (mediaPath g.fileName = p))
        rest.reverse with
    | some g => rfl
    | none =>
      rw [Option.none_or]
      by_cases hacc : acceptField allowed f = true
      · by_cases hpath : mediaPath f.fileName = p
        · rw [show List.find? (fun g => acceptField allowed g &&
              decide (mediaPath g.fileName = p)) [f] = some f from by
            simp [List.find?, hacc, hpath]]
          rw [if_pos hacc]
          unfold writeMedia
          rw [if_pos hpath.symm]
        · rw [show List.find? (fun g => acceptField allowed g &&
              decide (mediaPath g.fileName = p)) [f] = none from by
            simp [List.find?, hacc, hpath]]
          rw [if_pos hacc]
          unfold writeMedia
          rw [if_neg (fun h => hpath h.symm)]
      · rw [show List.find? (fun g => acceptField allowed g &&
            decide (mediaPath g.fileName = p)) [f] = none from by
          simp [List.find?, hacc]]
        rw [if_neg hacc]

/-- C10: media upload filtering. A multipart field passes `post_media`'s
test iff it is named `image` and its client-supplied file name ends with one
of the configured `allowed_uploads` suffixes (plain suffix match); the
resulting storage at any path holds the payload of the last accepted field
whose verbatim target `content/media/{file_name}` is that path, and is
untouched at every other path. -/
theorem post_media_filtering (allowed : List Str) (fields : List MediaField) (m : MediaFS)
    (p : Str) (f : MediaField) :
    (acceptField allowed f = true ↔
      f.name = imageFieldName ∧ ∃ e ∈ allowed, e.isSuffixOf f.fileName = true) ∧
    postMedia allowed fields m p =
      match fields.reverse.find? (fun g => acceptField allowed g &&
          decide (mediaPath g.fileName = p)) with
      | some g => some g.payload
      | none => m p := by
  constructor
  · simp [acceptField, List.any_eq_true]
  · exact postMedia_lookup allowed fields m p

end Tome
